import Mathlib

/-!
Verification of the marginal message passing routine `run_mmp_v2`
(`src/pymdp/core/algos/mmp_v2.py`) of the `inferactively` repository.

The routine is embedded shallowly over the rationals.  The numerical
primitives it consumes from `pymdp.core.maths` (the library exponential
and logarithm used inside `softmax`/`np.log`, and the free-energy
primitive `calc_free_energy`) are not part of the source tree; following
the specification they are treated as opaque parameters collected in a
`Prims` structure, while `spm_dot`, `spm_norm` and `softmax` are modelled
from the specification's contracts for them.  numpy indexing of the
action axis of `B`/`trans_B` (including negative-index wrap-around) is
modelled by `npIndex`, and Python `int()` truncation by `pyInt`; a call
that would raise an `IndexError` is modelled as returning `none`.
-/

namespace MMP

/-- The additive floor `1e-16` applied before every logarithm in the source. -/
def eps : ℚ := 1 / 10 ^ 16

/-- A joint-hidden-state tensor (one entry of `ll_seq`), indexed by a list
giving one state index per hidden-state factor. -/
abbrev Tensor : Type := List ℕ → ℚ

/-- The belief state `qs_seq`: timestep ↦ factor ↦ probability vector. -/
abbrev QS : Type := ℕ → ℕ → List ℚ

/-- Modelled from the spec: the numerical primitives consumed as black
boxes.  `exp` and `log` are the library exponential/logarithm (used by the
softmax primitive and by `np.log`), `calc_free_energy` is the free-energy
primitive computing KL-divergence-plus-optional-accuracy for one
timestep's joint belief (arguments: per-factor beliefs at the timestep,
per-factor prior, factor count, optional log-likelihood tensor).  None of
these functions is part of the source tree (`pymdp.core.maths`). -/
structure Prims where
  exp : ℚ → ℚ
  log : ℚ → ℚ
  calc_free_energy : (ℕ → List ℚ) → (ℕ → List ℚ) → ℕ → Option Tensor → ℚ

/-! ### Vector operations -/

/-- Elementwise sum of two vectors. -/
def vadd (a b : List ℚ) : List ℚ := List.zipWith (fun x y => x + y) a b

/-- Elementwise difference of two vectors. -/
def vsub (a b : List ℚ) : List ℚ := List.zipWith (fun x y => x - y) a b

/-- Scalar multiple of a vector. -/
def smul (c : ℚ) (v : List ℚ) : List ℚ := v.map (fun x => c * x)

/-- Dot product of two vectors. -/
def vdot (a b : List ℚ) : ℚ := (List.zipWith (fun x y => x * y) a b).sum

/-- numpy `mean` of a vector. -/
def vmean (v : List ℚ) : ℚ := v.sum / (v.length : ℚ)

/-- `np.log(v + 1e-16)`: the floored elementwise logarithm. -/
def vlog (P : Prims) (v : List ℚ) : List ℚ := v.map (fun x => P.log (x + eps))

/-- Modelled from the spec: the normalization primitive producing a valid
probability vector — divide each entry by the total. -/
def normalize (v : List ℚ) : List ℚ := v.map (fun x => x / v.sum)

/-- Modelled from the spec: the softmax primitive of `pymdp.core.maths`
(not in the source tree) — `normalize(exp(·))` over the state axis. -/
def softmax (P : Prims) (v : List ℚ) : List ℚ := normalize (v.map P.exp)

/-- The uniform distribution `np.ones(n) / n`. -/
def uniform (n : ℕ) : List ℚ := List.replicate n (1 / (n : ℚ))

/-! ### Marginalization (`spm_dot`) -/

/-- Insert a value into a list at a given position. -/
def insAt : ℕ → ℕ → List ℕ → List ℕ
  | 0, a, l => a :: l
  | _ + 1, a, [] => [a]
  | n + 1, a, x :: xs => x :: insAt n a xs

/-- All index tuples of a given shape. -/
def allIdx : List ℕ → List (List ℕ)
  | [] => [[]]
  | n :: ns => (List.range n).flatMap (fun i => (allIdx ns).map (fun r => i :: r))

/-- Modelled from the spec: the marginalization primitive `spm_dot` of
`pymdp.core.maths` (not in the source tree) — contracts the likelihood
tensor against the beliefs of every factor other than `f`, projecting
onto factor `f`'s state axis. -/
def spm_dot (L : Tensor) (qs : ℕ → List ℚ) (nf : ℕ) (ns : ℕ → ℕ) (f : ℕ) : List ℚ :=
  let others := (List.range nf).filter (fun g => g ≠ f)
  (List.range (ns f)).map (fun i =>
    ((allIdx (others.map ns)).map (fun r =>
      L (insAt f i r) * ((others.zip r).map (fun gj => (qs gj.1).getD gj.2 0)).prod)).sum)

/-- Matrix–vector product, the matrix given entrywise as a function. -/
def matVecF (m : ℕ → ℕ → ℚ) (nrow ncol : ℕ) (v : List ℚ) : List ℚ :=
  (List.range nrow).map (fun i => ((List.range ncol).map (fun j => m i j * v.getD j 0)).sum)

/-! ### The preprocessed call (`Core`) and its derived quantities -/

/-- The data of one `run_mmp_v2` call after the model preprocessor has
resolved defaults: `nf`/`ns`/`na` are `num_factors`, `num_states` and the
per-factor action count `B[f].shape[2]`; `B f i j u` is `B[f][i, j, u]`;
`ll` is `ll_seq`; `prior` is the (resolved) per-factor prior; `acts t f`
is the `int()`-converted entry `policy[t, f]` of the full (past + future)
action trajectory. -/
structure Core where
  nf : ℕ
  ns : ℕ → ℕ
  na : ℕ → ℕ
  B : ℕ → ℕ → ℕ → ℕ → ℚ
  ll : List Tensor
  prior : ℕ → List ℚ
  acts : ℕ → ℕ → ℤ
  future_len : ℕ
  num_iter : ℕ
  grad_descent : Bool
  tau : ℚ
  last_timestep : Bool

/-- `past_len = len(ll_seq)`. -/
def past_len (C : Core) : ℕ := C.ll.length

/-- `infer_len = past_len + future_len`, reduced by 1 when `last_timestep`. -/
def infer_len (C : Core) : ℕ :=
  if C.last_timestep then past_len C + C.future_len - 1 else past_len C + C.future_len

/-- `future_cutoff = past_len + future_len - 2` (Python integer arithmetic,
hence over `ℤ`). -/
def future_cutoff (C : Core) : ℤ := (past_len C : ℤ) + (C.future_len : ℤ) - 2

/-- The terminal message `qs_T[f] = np.zeros(num_states[f])`. -/
def qs_T (C : Core) (f : ℕ) : List ℚ := List.replicate (C.ns f) 0

/-- The initial beliefs: `np.ones(num_states[f]) / num_states[f]` at every
timestep and factor. -/
def init_qs (C : Core) : QS := fun _ f => uniform (C.ns f)

/-- `trans_B[f][:, :, u] = spm_norm(B[f][:, :, u].T)`.  Modelled from the
spec: `spm_norm` (of `pymdp.core.maths`, not in the source tree)
row-normalizes the transposed slice so that each row sums to 1. -/
def trans_B (C : Core) (f u : ℕ) : ℕ → ℕ → ℚ :=
  fun i j => C.B f j i u / ((List.range (C.ns f)).map (fun k => C.B f k i u)).sum

/-- numpy indexing of an axis of length `n` with a Python integer:
in-range non-negative indices are used as is, indices in `[-n, 0)` wrap
around, anything else raises `IndexError` (modelled as `none`). -/
def npIndex (k : ℤ) (n : ℕ) : Option ℕ :=
  if 0 ≤ k ∧ k < (n : ℤ) then some k.toNat
  else if -(n : ℤ) ≤ k ∧ k < 0 then some (k + (n : ℤ)).toNat else none

/-- The all-zero tensor, used as an out-of-range list default. -/
def zeroTensor : Tensor := fun _ => 0

/-! ### The three log-domain messages of one `(t, f)` visit -/

/-- Likelihood message: `np.log(spm_dot(ll_seq[t], qs_seq[t], [f]) + 1e-16)`
when `t < past_len`, else `np.zeros(num_states[f])`. -/
def lnA_msg (P : Prims) (C : Core) (qs : QS) (t f : ℕ) : List ℚ :=
  if t < past_len C then vlog P (spm_dot (C.ll.getD t zeroTensor) (qs t) C.nf C.ns f)
  else List.replicate (C.ns f) 0

/-- Past message: `np.log(prior[f] + 1e-16)` at `t = 0`, else
`np.log(B[f][:, :, int(policy[t-1, f])].dot(qs_seq[t-1][f]) + 1e-16)`,
failing when the action index is out of numpy range. -/
def lnB_past_msg (P : Prims) (C : Core) (qs : QS) (t f : ℕ) : Option (List ℚ) :=
  if t = 0 then some (vlog P (C.prior f))
  else (npIndex (C.acts (t - 1) f) (C.na f)).map (fun u =>
    vlog P (matVecF (fun i j => C.B f i j u) (C.ns f) (C.ns f) (qs (t - 1) f)))

/-- Future message: the terminal message `qs_T[f]` when `t >= future_cutoff`,
else `np.log(trans_B[f][:, :, int(policy[t, f])].dot(qs_seq[t+1][f]) + 1e-16)`,
failing when the action index is out of numpy range. -/
def lnB_future_msg (P : Prims) (C : Core) (qs : QS) (t f : ℕ) : Option (List ℚ) :=
  if future_cutoff C ≤ (t : ℤ) then some (qs_T C f)
  else (npIndex (C.acts t f) (C.na f)).map (fun u =>
    vlog P (matVecF (trans_B C f u) (C.ns f) (C.ns f) (qs (t + 1) f)))

/-! ### One `(t, f)` visit and the sweep structure -/

/-- Overwrite the belief of one timestep/factor slot. -/
def updateQS (qs : QS) (t f : ℕ) (v : List ℚ) : QS :=
  fun t' f' => if t' = t then (if f' = f then v else qs t' f') else qs t' f'

/-- The belief update (and, under `grad_descent`, free-energy increment) of
one `(t, f)` visit, given the two already-resolved messages. -/
def visitOk (P : Prims) (C : Core) (st : QS × ℚ) (t f : ℕ)
    (lnB_past lnB_future : List ℚ) : QS × ℚ :=
  let qs := st.1
  let lnA := lnA_msg P C qs t f
  if C.grad_descent then
    let lnqs0 := (qs t f).map (fun x => P.log (x + eps))
    let coeff : ℚ := if future_cutoff C ≤ (t : ℤ) then 1 else 2
    let err0 := vsub (vadd (vadd (smul coeff lnA) lnB_past) lnB_future) (smul coeff lnqs0)
    let err := vsub err0 (List.replicate err0.length (vmean err0))
    let lnqs := vadd lnqs0 (smul C.tau err)
    let dF : ℚ :=
      if t = 0 ∨ t = infer_len C - 1 then (1 / 2) * vdot lnqs (smul (1 / 2) err)
      else vdot lnqs (smul (1 / 2) (vsub err (smul (((C.nf : ℚ) - 1) / (C.nf : ℚ)) lnA)))
    (updateQS qs t f (softmax P lnqs), st.2 + dF)
  else
    (updateQS qs t f (softmax P (vadd (vadd lnA lnB_past) lnB_future)), st.2)

/-- One `(t, f)` visit of the message engine and belief updater. -/
def visit (P : Prims) (C : Core) (st : QS × ℚ) (t f : ℕ) : Option (QS × ℚ) :=
  (lnB_past_msg P C st.1 t f).bind (fun p =>
    (lnB_future_msg P C st.1 t f).map (fun fu => visitOk P C st t f p fu))

/-- The optional log-likelihood argument `np.log(ll_seq[t] + 1e-16)` passed
to `calc_free_energy` exactly when `t < past_len`. -/
def fe_like (P : Prims) (C : Core) (t : ℕ) : Option Tensor :=
  if t < past_len C then some (fun s => P.log ((C.ll.getD t zeroTensor) s + eps)) else none

/-- One timestep of a sweep: all factors in ascending order, then (when the
gradient-descent rule is not used) one `calc_free_energy` increment. -/
def stepTime (P : Prims) (C : Core) (st : QS × ℚ) (t : ℕ) : Option (QS × ℚ) :=
  ((List.range C.nf).foldlM (fun s f => visit P C s t f) st).map (fun st1 =>
    if C.grad_descent then st1
    else (st1.1, st1.2 + P.calc_free_energy (st1.1 t) C.prior C.nf (fe_like P C t)))

/-- One full sweep over all timesteps (the loop body for one iteration). -/
def stepIter (P : Prims) (C : Core) (st : QS × ℚ) (_itr : ℕ) : Option (QS × ℚ) :=
  (List.range (infer_len C)).foldlM (stepTime P C) st

/-- The full fixed-point loop from the initial uniform beliefs and `F = 0`. -/
def coreRun (P : Prims) (C : Core) : Option (QS × ℚ) :=
  (List.range C.num_iter).foldlM (stepIter P C) (init_qs C, 0)

/-! ### The call-level interface (`run_mmp_v2`) -/

/-- The raw arguments of a `run_mmp_v2` call.  `policy` has `future_len`
rows, each a per-factor (possibly fractional) action value; optional
arguments are `Option`s. -/
structure MMPInput where
  num_factors : ℕ
  num_states : ℕ → ℕ
  num_controls : ℕ → ℕ
  B : ℕ → ℕ → ℕ → ℕ → ℚ
  ll_seq : List Tensor
  policy : List (ℕ → ℚ)
  prev_actions : Option (List (ℕ → ℚ))
  prior : Option (ℕ → List ℚ)
  num_iter : ℕ
  grad_descent : Bool
  tau : ℚ
  last_timestep : Bool

/-- Python `int()` applied to a numeric value: truncation toward zero. -/
def pyInt (q : ℚ) : ℤ := if 0 ≤ q then ⌊q⌋ else ⌈q⌉

/-- `np.vstack((prev_actions, policy))` with the all-zero default for
`prev_actions`. -/
def full_policy (M : MMPInput) : List (ℕ → ℚ) :=
  (M.prev_actions.getD (List.replicate M.ll_seq.length (fun _ => 0))) ++ M.policy

/-- The `int()`-converted entry `policy[t, f]` of the full trajectory. -/
def actIdx (M : MMPInput) (t f : ℕ) : ℤ := pyInt ((full_policy M).getD t (fun _ => 0) f)

/-- The prior with its uniform default resolved. -/
def priorR (M : MMPInput) : ℕ → List ℚ :=
  M.prior.getD (fun f => uniform (M.num_states f))

/-- The model preprocessor: resolve defaults and build the full action
trajectory, once per call. -/
def prep (M : MMPInput) : Core :=
  { nf := M.num_factors, ns := M.num_states, na := M.num_controls, B := M.B,
    ll := M.ll_seq, prior := priorR M, acts := actIdx M, future_len := M.policy.length,
    num_iter := M.num_iter, grad_descent := M.grad_descent, tau := M.tau,
    last_timestep := M.last_timestep }

/-- The embedded `run_mmp_v2` call: returns `(qs_seq, F)`, or `none` when
the loop raises an out-of-range indexing error. -/
def run_mmp_v2 (P : Prims) (M : MMPInput) : Option (QS × ℚ) := coreRun P (prep M)

/-! ### Generic lemmas about `Option`-valued folds -/

theorem foldlM_option_inv {α β : Type} {Inv : α → Prop} (f : α → β → Option α) :
    ∀ (l : List β), (∀ a b, b ∈ l → Inv a → ∀ r, f a b = some r → Inv r) →
      ∀ a, Inv a → ∀ r, l.foldlM f a = some r → Inv r := by
  intro l
  induction l with
  | nil =>
    intro _ a ha r hr
    simp only [List.foldlM_nil, pure, Option.some.injEq] at hr
    exact hr ▸ ha
  | cons x xs ih =>
    intro hf a ha r hr
    rw [List.foldlM_cons] at hr
    cases h1 : f a x with
    | none => rw [h1] at hr; exact absurd hr (by simp [Bind.bind])
    | some a1 =>
      rw [h1] at hr
      simp only [Bind.bind, Option.some_bind] at hr
      exact ih (fun a b hb => hf a b (List.mem_cons_of_mem _ hb)) a1
        (hf a x (List.mem_cons_self _ _) ha a1 h1) r hr

theorem foldlM_option_isSome {α β : Type} (f : α → β → Option α) :
    ∀ (l : List β), (∀ a b, b ∈ l → (f a b).isSome) →
      ∀ a, (l.foldlM f a).isSome := by
  intro l
  induction l with
  | nil => intro _ a; simp [List.foldlM_nil, pure]
  | cons x xs ih =>
    intro hf a
    rw [List.foldlM_cons]
    cases h1 : f a x with
    | none =>
      have := hf a x (List.mem_cons_self _ _)
      rw [h1] at this; simp at this
    | some a1 =>
      simp only [Bind.bind, Option.some_bind]
      exact ih (fun a b hb => hf a b (List.mem_cons_of_mem _ hb)) a1

theorem foldlM_option_none {α β : Type} (f : α → β → Option α) :
    ∀ (l : List β) (b : β), b ∈ l → (∀ a, f a b = none) →
      ∀ a, l.foldlM f a = none := by
  intro l
  induction l with
  | nil => intro b hb; exact absurd hb (List.not_mem_nil b)
  | cons x xs ih =>
    intro b hb hbad a
    rw [List.foldlM_cons]
    cases h1 : f a x with
    | none => simp [Bind.bind]
    | some a1 =>
      rcases List.mem_cons.mp hb with hbx | hbxs
      · rw [← hbx] at h1; rw [hbad a] at h1; exact absurd h1 (by simp)
      · simp only [Bind.bind, Option.some_bind]
        exact ih b hbxs hbad a1

/-! ### Elementary vector lemmas -/

theorem sum_map_div (v : List ℚ) (s : ℚ) :
    (v.map (fun x => x / s)).sum = v.sum / s := by
  induction v with
  | nil => simp
  | cons x xs ih => simp [ih, add_div]

theorem sum_map_mul_last {α : Type} (l : List α) (g : α → ℚ) (c : ℚ) :
    (l.map (fun x => g x * c)).sum = (l.map g).sum * c := by
  induction l with
  | nil => simp
  | cons x xs ih => simp [ih, add_mul]

theorem normalize_length (v : List ℚ) : (normalize v).length = v.length := by
  simp [normalize]

theorem normalize_sum (v : List ℚ) (h : v.sum ≠ 0) : (normalize v).sum = 1 := by
  simp only [normalize, sum_map_div]
  exact div_self h

theorem normalize_nonneg (v : List ℚ) (h0 : 0 ≤ v.sum) (hv : ∀ y ∈ v, 0 ≤ y) :
    ∀ x ∈ normalize v, 0 ≤ x := by
  intro x hx
  rcases List.mem_map.mp hx with ⟨y, hy, hxy⟩
  exact hxy ▸ div_nonneg (hv y hy) h0

theorem softmax_valid (P : Prims) (hexp : ∀ x, 0 < P.exp x) (v : List ℚ) (hv : v ≠ []) :
    (softmax P v).length = v.length ∧ (∀ x ∈ softmax P v, 0 ≤ x) ∧ (softmax P v).sum = 1 := by
  have hpos : ∀ x ∈ v.map P.exp, 0 < x := by
    intro x hx
    rcases List.mem_map.mp hx with ⟨y, _, hxy⟩
    exact hxy ▸ hexp y
  have hne : v.map P.exp ≠ [] := by
    intro h; exact hv (List.map_eq_nil_iff.mp h)
  have hsum : 0 < (v.map P.exp).sum := List.sum_pos _ hpos hne
  refine ⟨by simp [softmax, normalize], ?_, ?_⟩
  · intro x hx
    rcases List.mem_map.mp hx with ⟨y, hy, hxy⟩
    exact hxy ▸ div_nonneg (le_of_lt (hpos y hy)) (le_of_lt hsum)
  · exact normalize_sum _ (ne_of_gt hsum)

theorem zipWith_replicate_both {f : ℚ → ℚ → ℚ} {a b : ℚ} :
    ∀ n, List.zipWith f (List.replicate n a) (List.replicate n b) = List.replicate n (f a b) := by
  intro n
  induction n with
  | zero => rfl
  | succ k ih => simp [List.replicate_succ, ih]

theorem vadd_replicate (n : ℕ) (a b : ℚ) :
    vadd (List.replicate n a) (List.replicate n b) = List.replicate n (a + b) :=
  zipWith_replicate_both n

theorem vsub_replicate (n : ℕ) (a b : ℚ) :
    vsub (List.replicate n a) (List.replicate n b) = List.replicate n (a - b) :=
  zipWith_replicate_both n

theorem smul_replicate (c : ℚ) (n : ℕ) (a : ℚ) :
    smul c (List.replicate n a) = List.replicate n (c * a) := by
  simp [smul, List.map_replicate]

theorem vlog_replicate (P : Prims) (n : ℕ) (a : ℚ) :
    vlog P (List.replicate n a) = List.replicate n (P.log (a + eps)) := by
  simp [vlog, List.map_replicate]

theorem vmean_replicate (n : ℕ) (hn : 0 < n) (a : ℚ) :
    vmean (List.replicate n a) = a := by
  have hne : ((n : ℚ)) ≠ 0 := Nat.cast_ne_zero.mpr (Nat.pos_iff_ne_zero.mp hn)
  simp only [vmean, List.sum_replicate, List.length_replicate, nsmul_eq_mul]
  exact mul_div_cancel_left₀ a hne

theorem softmax_replicate (P : Prims) (hexp : ∀ x, 0 < P.exp x) (n : ℕ) (hn : 0 < n) (a : ℚ) :
    softmax P (List.replicate n a) = uniform n := by
  have hne : ((n : ℚ)) ≠ 0 := Nat.cast_ne_zero.mpr (Nat.pos_iff_ne_zero.mp hn)
  have hx : P.exp a / ((n : ℚ) * P.exp a) = 1 / (n : ℚ) := by
    rw [div_eq_div_iff (ne_of_gt (mul_pos (Nat.cast_pos.mpr hn) (hexp a))) hne]
    ring
  simp only [softmax, normalize, List.map_replicate, List.sum_replicate, nsmul_eq_mul, uniform, hx]

theorem getD_replicate (n j : ℕ) (a : ℚ) (hj : j < n) :
    (List.replicate n a).getD j 0 = a := by
  induction n generalizing j with
  | zero => exact absurd hj (Nat.not_lt_zero j)
  | succ k ih =>
    cases j with
    | zero => rfl
    | succ i => exact ih i (Nat.lt_of_succ_lt_succ hj)

theorem npIndex_in_range {k : ℤ} {n : ℕ} (h0 : 0 ≤ k) (h1 : k < (n : ℤ)) :
    npIndex k n = some k.toNat := by
  simp [npIndex, h0, h1]

/-! ### Concrete instances used by witnesses and counterexamples -/

/-- A strictly monotone positive stand-in for the exponential. -/
def qexp : ℚ → ℚ := fun x => if 0 ≤ x then x + 1 else 1 / (1 - x)

theorem qexp_pos : ∀ x, 0 < qexp x := by
  intro x
  unfold qexp
  split
  · linarith
  · have h1 : (0:ℚ) < 1 - x := by linarith [not_le.mp (by assumption)]
    positivity

/-- Primitives with a constant positive exponential and identity logarithm. -/
def Pone : Prims := ⟨fun _ => 1, fun x => x, fun _ _ _ _ => 0⟩

/-- Primitives with a strictly monotone positive exponential. -/
def Pmono : Prims := ⟨qexp, fun x => x, fun _ _ _ _ => 0⟩

/-- A two-past/two-future single-factor call with identity transitions. -/
def Mwin : MMPInput :=
  { num_factors := 1, num_states := fun _ => 2, num_controls := fun _ => 1,
    B := fun _ i j _ => if i = j then 1 else 0,
    ll_seq := [fun _ => 1, fun _ => 1], policy := [fun _ => 0, fun _ => 0],
    prev_actions := none, prior := none, num_iter := 1, grad_descent := false,
    tau := 1 / 4, last_timestep := false }

/-- A two-past/one-future single-factor call flagged as reaching the final
timestep. -/
def Mlast : MMPInput :=
  { num_factors := 1, num_states := fun _ => 2, num_controls := fun _ => 1,
    B := fun _ i j _ => if i = j then 1 else 0,
    ll_seq := [fun _ => 1, fun _ => 1], policy := [fun _ => 0],
    prev_actions := none, prior := none, num_iter := 1, grad_descent := false,
    tau := 1 / 4, last_timestep := true }

/-! ### Claim C2: the inference window and the future-message cutoff -/

/-- C2 (amended): `infer_len = past_len + future_len`, reduced by 1 when
`last_timestep`; `future_cutoff = past_len + future_len - 2` is the FIRST
timestep index that uses the terminal zero message `qs_T[f]`: every
`t >= future_cutoff` uses the terminal message and every `t < future_cutoff`
receives the genuine forward-in-time message computed from `trans_B` and the
successor belief `qs_seq[t+1][f]` (so the last index receiving a genuine
message is `future_cutoff - 1`, not `future_cutoff`). -/
theorem claim_C2_amended (P : Prims) (M : MMPInput) (hfl : 0 < M.policy.length) :
    ((infer_len (prep M) : ℤ) =
      if M.last_timestep then (M.ll_seq.length : ℤ) + (M.policy.length : ℤ) - 1
      else (M.ll_seq.length : ℤ) + (M.policy.length : ℤ)) ∧
    future_cutoff (prep M) = (M.ll_seq.length : ℤ) + (M.policy.length : ℤ) - 2 ∧
    (∀ (qs : QS) (t f : ℕ), future_cutoff (prep M) ≤ (t : ℤ) →
      lnB_future_msg P (prep M) qs t f = some (qs_T (prep M) f)) ∧
    (∀ (qs : QS) (t f : ℕ), (t : ℤ) < future_cutoff (prep M) →
      lnB_future_msg P (prep M) qs t f =
        (npIndex (actIdx M t f) (M.num_controls f)).map (fun u =>
          vlog P (matVecF (trans_B (prep M) f u) (M.num_states f) (M.num_states f)
            (qs (t + 1) f)))) := by
  refine ⟨?_, rfl, ?_, ?_⟩
  · simp only [infer_len, past_len, prep]
    split
    · omega
    · omega
  · intro qs t f ht
    simp [lnB_future_msg, ht]
  · intro qs t f ht
    simp only [lnB_future_msg, if_neg (not_le.mpr ht)]
    rfl

/-- C2 counterexample: in a call with `past_len = 2`, `future_len = 2` the
cutoff index `t = future_cutoff = 2` lies inside the window, yet the future
message used there is the terminal zero message and differs from the genuine
`trans_B`-based message the claim says this index still receives. -/
theorem claim_C2_counterexample :
    future_cutoff (prep Mwin) = 2 ∧ 2 < infer_len (prep Mwin) ∧
    lnB_future_msg Pone (prep Mwin) (init_qs (prep Mwin)) 2 0 = some (qs_T (prep Mwin) 0) ∧
    lnB_future_msg Pone (prep Mwin) (init_qs (prep Mwin)) 2 0 ≠
      (npIndex (actIdx Mwin 2 0) (Mwin.num_controls 0)).map (fun u =>
        vlog Pone (matVecF (trans_B (prep Mwin) 0 u) 2 2 (init_qs (prep Mwin) 3 0))) := by
  refine ⟨rfl, by decide, rfl, ?_⟩
  have hr2 : List.range 2 = [0, 1] := rfl
  simp only [lnB_future_msg, prep, Mwin, actIdx, full_policy, pyInt, npIndex, past_len,
    future_cutoff, trans_B, matVecF, vlog, qs_T, init_qs, uniform, zeroTensor, Pone,
    eps, hr2, List.map_cons, List.map_nil, List.sum_cons, List.sum_nil,
    List.replicate_succ, List.replicate_zero, List.getD_cons_zero, List.getD_cons_succ,
    Option.map_some, Option.getD_none, List.length_cons, List.length_nil,
    List.cons_append, List.nil_append]
  norm_num

/-! ### Claim C6: the `future_len = 1`, `last_timestep` edge case -/

/-- C6 (amended): with `future_len = 1` and `last_timestep` true the window
is `infer_len = past_len` and `future_cutoff = past_len - 1 = infer_len - 1`,
so exactly the final timestep of the window uses the terminal message while
every earlier timestep still receives a genuine `trans_B`-based message; the
cutoff falls below 0 (making every timestep terminal) only when
`past_len = 0`, i.e. when the window is empty. -/
theorem claim_C6_amended (P : Prims) (M : MMPInput) (h1 : M.policy.length = 1)
    (h2 : M.last_timestep = true) :
    infer_len (prep M) = M.ll_seq.length ∧
    future_cutoff (prep M) = (M.ll_seq.length : ℤ) - 1 ∧
    (future_cutoff (prep M) < 0 ↔ M.ll_seq.length = 0) ∧
    (∀ (qs : QS) (t f : ℕ), t + 1 = infer_len (prep M) →
      lnB_future_msg P (prep M) qs t f = some (qs_T (prep M) f)) ∧
    (∀ (qs : QS) (t f : ℕ), t + 1 < infer_len (prep M) →
      lnB_future_msg P (prep M) qs t f =
        (npIndex (actIdx M t f) (M.num_controls f)).map (fun u =>
          vlog P (matVecF (trans_B (prep M) f u) (M.num_states f) (M.num_states f)
            (qs (t + 1) f)))) := by
  have hinf : infer_len (prep M) = M.ll_seq.length := by
    simp only [infer_len, past_len, prep, h1, h2, if_true]
    omega
  have hcut : future_cutoff (prep M) = (M.ll_seq.length : ℤ) - 1 := by
    simp only [future_cutoff, past_len, prep, h1]
    push_cast
    ring
  refine ⟨hinf, hcut, by rw [hcut]; omega, ?_, ?_⟩
  · intro qs t f ht
    have : future_cutoff (prep M) ≤ (t : ℤ) := by
      rw [hcut]; rw [hinf] at ht; omega
    simp [lnB_future_msg, this]
  · intro qs t f ht
    have : ¬ future_cutoff (prep M) ≤ (t : ℤ) := by
      rw [hcut]; rw [hinf] at ht; omega
    simp only [lnB_future_msg, if_neg this]
    rfl

/-- C6 counterexample: with `future_len = 1`, `last_timestep` true and
`past_len = 2`, the cutoff is `1`, not below `0`, and the future message at
timestep `0` of the window is a genuine `trans_B`-based message, not the
terminal message — refuting that every timestep uses the terminal boundary. -/
theorem claim_C6_counterexample :
    Mlast.policy.length = 1 ∧ Mlast.last_timestep = true ∧
    ¬ future_cutoff (prep Mlast) < 0 ∧ 0 < infer_len (prep Mlast) ∧
    lnB_future_msg Pone (prep Mlast) (init_qs (prep Mlast)) 0 0 ≠
      some (qs_T (prep Mlast) 0) := by
  refine ⟨rfl, rfl, by decide, by decide, ?_⟩
  have hr2 : List.range 2 = [0, 1] := rfl
  simp only [lnB_future_msg, prep, Mlast, actIdx, full_policy, pyInt, npIndex, past_len,
    future_cutoff, trans_B, matVecF, vlog, qs_T, init_qs, uniform, zeroTensor, Pone,
    eps, hr2, List.map_cons, List.map_nil, List.sum_cons, List.sum_nil,
    List.replicate_succ, List.replicate_zero, List.getD_cons_zero, List.getD_cons_succ,
    Option.map_some, Option.getD_none, List.length_cons, List.length_nil,
    List.cons_append, List.nil_append]
  norm_num

/-! ### Claim C7: zero iterations return the initial state -/

/-- C7: with `num_iter = 0` the call returns the initial uniform beliefs
(each `qs_seq[t][f]` is the vector with every entry `1/num_states[f]`) and
the accumulated free energy `F = 0`. -/
theorem claim_C7 (P : Prims) (M : MMPInput) (h : M.num_iter = 0) :
    run_mmp_v2 P M = some (init_qs (prep M), 0) ∧
      ∀ t f, init_qs (prep M) t f =
        List.replicate (M.num_states f) (1 / (M.num_states f : ℚ)) := by
  constructor
  · have hcore : (prep M).num_iter = 0 := h
    unfold run_mmp_v2 coreRun
    rw [hcore]
    rfl
  · intro t f
    rfl

/-- The two-past/two-future call with the sweep count set to zero. -/
def Mzero : MMPInput := { Mwin with num_iter := 0 }

theorem claim_C7_witness :
    run_mmp_v2 Pone Mzero = some (init_qs (prep Mzero), 0) ∧
      init_qs (prep Mzero) 0 0 =
        List.replicate (Mzero.num_states 0) (1 / (Mzero.num_states 0 : ℚ)) :=
  ⟨(claim_C7 Pone Mzero rfl).1, (claim_C7 Pone Mzero rfl).2 0 0⟩

theorem claim_C2_amended_witness :
    future_cutoff (prep Mwin) = (Mwin.ll_seq.length : ℤ) + (Mwin.policy.length : ℤ) - 2 ∧
      lnB_future_msg Pone (prep Mwin) (init_qs (prep Mwin)) 3 0 = some (qs_T (prep Mwin) 0) :=
  ⟨(claim_C2_amended Pone Mwin (by decide)).2.1,
   (claim_C2_amended Pone Mwin (by decide)).2.2.1 (init_qs (prep Mwin)) 3 0 (by decide)⟩

theorem claim_C6_amended_witness :
    infer_len (prep Mlast) = Mlast.ll_seq.length ∧
      lnB_future_msg Pone (prep Mlast) (init_qs (prep Mlast)) 1 0 = some (qs_T (prep Mlast) 0) :=
  ⟨(claim_C6_amended Pone Mlast rfl rfl).1,
   (claim_C6_amended Pone Mlast rfl rfl).2.2.2.1 (init_qs (prep Mlast)) 1 0 (by decide)⟩

/-! ### Claims C1 and C4: the two belief-update rules at one visit -/

/-- C1: with the direct rule (`grad_descent` false), a `(t, f)` visit
overwrites the belief with `normalize(exp(lnA + lnB_past + lnB_future))`
— the softmax over factor `f`'s state axis of the sum of the three
log-domain messages — where `lnA` is the floored log of the marginalized
evidence when `t < past_len` and the zero vector otherwise, `lnB_past` is
the floored log of `prior[f]` at `t = 0` and of
`B[f][:, :, action(t-1, f)] · qs_seq[t-1][f]` otherwise, and `lnB_future`
is the terminal zero vector at `t >= future_cutoff` and the floored log of
`trans_B[f][:, :, action(t, f)] · qs_seq[t+1][f]` otherwise; `F` is left
unchanged by the visit. -/
theorem claim_C1 (P : Prims) (C : Core) (qs : QS) (F : ℚ) (t f : ℕ)
    (hgrad : C.grad_descent = false)
    (lnA lnB_past lnB_future : List ℚ)
    (hlnA : lnA = if t < past_len C then
        (spm_dot (C.ll.getD t zeroTensor) (qs t) C.nf C.ns f).map (fun x => P.log (x + eps))
      else List.replicate (C.ns f) 0)
    (hlp : t = 0 ∧ lnB_past = (C.prior f).map (fun x => P.log (x + eps)) ∨
      t ≠ 0 ∧ 0 ≤ C.acts (t - 1) f ∧ C.acts (t - 1) f < (C.na f : ℤ) ∧
        lnB_past = (matVecF (fun i j => C.B f i j (C.acts (t - 1) f).toNat)
          (C.ns f) (C.ns f) (qs (t - 1) f)).map (fun x => P.log (x + eps)))
    (hlf : future_cutoff C ≤ (t : ℤ) ∧ lnB_future = List.replicate (C.ns f) 0 ∨
      (t : ℤ) < future_cutoff C ∧ 0 ≤ C.acts t f ∧ C.acts t f < (C.na f : ℤ) ∧
        lnB_future = (matVecF (trans_B C f (C.acts t f).toNat)
          (C.ns f) (C.ns f) (qs (t + 1) f)).map (fun x => P.log (x + eps))) :
    visit P C (qs, F) t f =
      some (updateQS qs t f
        (normalize ((vadd (vadd lnA lnB_past) lnB_future).map P.exp)), F) := by
  have hpast : lnB_past_msg P C qs t f = some lnB_past := by
    rcases hlp with ⟨h0, hv⟩ | ⟨h0, hge, hlt, hv⟩
    · simp [lnB_past_msg, h0, hv, vlog]
    · rw [lnB_past_msg, if_neg h0, npIndex_in_range hge hlt, Option.map_some']
      rw [hv]
      rfl
  have hfut : lnB_future_msg P C qs t f = some lnB_future := by
    rcases hlf with ⟨h0, hv⟩ | ⟨h0, hge, hlt, hv⟩
    · simp [lnB_future_msg, h0, hv, qs_T]
    · rw [lnB_future_msg, if_neg (not_le.mpr h0), npIndex_in_range hge hlt, Option.map_some']
      rw [hv]
      rfl
  show (lnB_past_msg P C qs t f).bind _ = _
  rw [hpast, hfut, Option.some_bind, Option.map_some']
  rw [visitOk]
  simp only [hgrad, Bool.false_eq_true, if_false]
  rw [hlnA]
  rfl

/-- The single-factor preprocessed call used by the visit-level witnesses. -/
def Cvis : Core :=
  { nf := 1, ns := fun _ => 2, na := fun _ => 1,
    B := fun _ i j _ => if i = j then 1 else 0,
    ll := [fun _ => 1], prior := fun _ => uniform 2, acts := fun _ _ => 0,
    future_len := 1, num_iter := 1, grad_descent := false, tau := 1 / 4,
    last_timestep := false }

theorem claim_C1_witness :
    visit Pone Cvis (init_qs Cvis, 0) 0 0 =
      some (updateQS (init_qs Cvis) 0 0
        (normalize ((vadd (vadd
          ((spm_dot (Cvis.ll.getD 0 zeroTensor) (init_qs Cvis 0) Cvis.nf Cvis.ns 0).map
            (fun x => Pone.log (x + eps)))
          ((Cvis.prior 0).map (fun x => Pone.log (x + eps))))
          (List.replicate (Cvis.ns 0) 0)).map Pone.exp)), 0) :=
  claim_C1 Pone Cvis (init_qs Cvis) 0 0 0 rfl _ _ _
    (by rw [if_pos]; decide)
    (Or.inl ⟨rfl, rfl⟩)
    (Or.inl ⟨by decide, rfl⟩)

/-- C4: with the gradient-descent rule, a `(t, f)` visit sets
`lnqs = log(qs_seq[t][f] + 1e-16)`, `coeff = 1` if `t >= future_cutoff`
else `2`, the residual `err = coeff·lnA + lnB_past + lnB_future −
coeff·lnqs` mean-centered by subtracting its mean, takes the damped step
`lnqs ← lnqs + tau·err`, overwrites the belief with `softmax(lnqs)`, and
adds to `F`, in the same visit, `0.5·lnqs·(0.5·err)` when `t = 0` or
`t = infer_len - 1`, and `lnqs·(0.5·(err − ((num_factors−1)/num_factors)·lnA))`
otherwise. -/
theorem claim_C4 (P : Prims) (C : Core) (qs : QS) (F : ℚ) (t f : ℕ)
    (hgrad : C.grad_descent = true)
    (lnA lnB_past lnB_future lnqs0 err0 err lnqs : List ℚ) (coeff : ℚ)
    (hlnA : lnA = if t < past_len C then
        (spm_dot (C.ll.getD t zeroTensor) (qs t) C.nf C.ns f).map (fun x => P.log (x + eps))
      else List.replicate (C.ns f) 0)
    (hlp : t = 0 ∧ lnB_past = (C.prior f).map (fun x => P.log (x + eps)) ∨
      t ≠ 0 ∧ 0 ≤ C.acts (t - 1) f ∧ C.acts (t - 1) f < (C.na f : ℤ) ∧
        lnB_past = (matVecF (fun i j => C.B f i j (C.acts (t - 1) f).toNat)
          (C.ns f) (C.ns f) (qs (t - 1) f)).map (fun x => P.log (x + eps)))
    (hlf : future_cutoff C ≤ (t : ℤ) ∧ lnB_future = List.replicate (C.ns f) 0 ∨
      (t : ℤ) < future_cutoff C ∧ 0 ≤ C.acts t f ∧ C.acts t f < (C.na f : ℤ) ∧
        lnB_future = (matVecF (trans_B C f (C.acts t f).toNat)
          (C.ns f) (C.ns f) (qs (t + 1) f)).map (fun x => P.log (x + eps)))
    (hlnqs0 : lnqs0 = (qs t f).map (fun x => P.log (x + eps)))
    (hcoeff : coeff = if future_cutoff C ≤ (t : ℤ) then 1 else 2)
    (herr0 : err0 = vsub (vadd (vadd (smul coeff lnA) lnB_past) lnB_future) (smul coeff lnqs0))
    (herr : err = vsub err0 (List.replicate err0.length (vmean err0)))
    (hlnqs : lnqs = vadd lnqs0 (smul C.tau err)) :
    visit P C (qs, F) t f =
      some (updateQS qs t f (softmax P lnqs),
        F + (if t = 0 ∨ t = infer_len C - 1 then (1 / 2) * vdot lnqs (smul (1 / 2) err)
          else vdot lnqs
            (smul (1 / 2) (vsub err (smul (((C.nf : ℚ) - 1) / (C.nf : ℚ)) lnA))))) := by
  have hpast : lnB_past_msg P C qs t f = some lnB_past := by
    rcases hlp with ⟨h0, hv⟩ | ⟨h0, hge, hlt, hv⟩
    · simp [lnB_past_msg, h0, hv, vlog]
    · rw [lnB_past_msg, if_neg h0, npIndex_in_range hge hlt, Option.map_some']
      rw [hv]
      rfl
  have hfut : lnB_future_msg P C qs t f = some lnB_future := by
    rcases hlf with ⟨h0, hv⟩ | ⟨h0, hge, hlt, hv⟩
    · simp [lnB_future_msg, h0, hv, qs_T]
    · rw [lnB_future_msg, if_neg (not_le.mpr h0), npIndex_in_range hge hlt, Option.map_some']
      rw [hv]
      rfl
  show (lnB_past_msg P C qs t f).bind _ = _
  rw [hpast, hfut, Option.some_bind, Option.map_some']
  rw [visitOk]
  simp only [hgrad, if_true]
  rw [hlnA] at *
  subst hlnqs herr herr0 hcoeff hlnqs0
  rfl

/-- The visit-level Core with the gradient-descent rule selected. -/
def CvisG : Core := { Cvis with grad_descent := true }

/-- The likelihood message of the C4 witness visit. -/
def wlnA : List ℚ :=
  (spm_dot (CvisG.ll.getD 0 zeroTensor) (init_qs CvisG 0) CvisG.nf CvisG.ns 0).map
    (fun x => Pmono.log (x + eps))

/-- The past message of the C4 witness visit. -/
def wlnB_past : List ℚ := (CvisG.prior 0).map (fun x => Pmono.log (x + eps))

/-- The future (terminal) message of the C4 witness visit. -/
def wlnB_future : List ℚ := List.replicate (CvisG.ns 0) 0

/-- The current log-belief of the C4 witness visit. -/
def wlnqs0 : List ℚ := (init_qs CvisG 0 0).map (fun x => Pmono.log (x + eps))

/-- The raw residual of the C4 witness visit. -/
def werr0 : List ℚ := vsub (vadd (vadd (smul 1 wlnA) wlnB_past) wlnB_future) (smul 1 wlnqs0)

/-- The mean-centered residual of the C4 witness visit. -/
def werr : List ℚ := vsub werr0 (List.replicate werr0.length (vmean werr0))

/-- The stepped log-belief of the C4 witness visit. -/
def wlnqs : List ℚ := vadd wlnqs0 (smul CvisG.tau werr)

theorem claim_C4_witness :
    visit Pmono CvisG (init_qs CvisG, 0) 0 0 =
      some (updateQS (init_qs CvisG) 0 0 (softmax Pmono wlnqs),
        0 + (1 / 2) * vdot wlnqs (smul (1 / 2) werr)) := by
  have h := claim_C4 Pmono CvisG (init_qs CvisG) 0 0 0 rfl
    wlnA wlnB_past wlnB_future wlnqs0 werr0 werr wlnqs 1
    (by rw [wlnA, if_pos]; decide)
    (Or.inl ⟨rfl, rfl⟩)
    (Or.inl ⟨by decide, rfl⟩)
    rfl
    (by rw [if_pos]; decide)
    rfl rfl rfl
  rw [if_pos (Or.inl rfl)] at h
  exact h

/-! ### Claim C9: out-of-range action indices -/

/-- A visit with `t >= 1` whose past-message action index is out of numpy
range fails from every state. -/
theorem visit_none_of_bad_past (P : Prims) (C : Core) {t f : ℕ} (ht : t ≠ 0)
    (hbad : npIndex (C.acts (t - 1) f) (C.na f) = none) :
    ∀ st, visit P C st t f = none := by
  intro st
  rw [visit, lnB_past_msg, if_neg ht, hbad]
  rfl

/-- C9 (amended): a call with `num_iter >= 1` whose full action trajectory
holds, at a row index that is actually dereferenced (`r` with
`r + 1 < infer_len`) and a factor `f < num_factors`, an action whose
`int()` value is outside numpy's accepted range `[-num_actions[f],
num_actions[f])`, fails with an out-of-range indexing error (returns
`none`); rows at index `infer_len - 1` and beyond are never dereferenced,
and negative values in `[-num_actions[f], -1]` wrap around instead of
failing. -/
theorem claim_C9_amended (P : Prims) (M : MMPInput) (f0 r0 : ℕ)
    (hni : 0 < M.num_iter) (hf : f0 < M.num_factors)
    (hr : r0 + 1 < infer_len (prep M))
    (hbad : npIndex (actIdx M r0 f0) (M.num_controls f0) = none) :
    run_mmp_v2 P M = none := by
  have hvisit : ∀ st, visit P (prep M) st (r0 + 1) f0 = none :=
    visit_none_of_bad_past P (prep M) (Nat.succ_ne_zero r0)
      (by simpa using hbad)
  have hstep : ∀ st, stepTime P (prep M) st (r0 + 1) = none := by
    intro st
    rw [stepTime, foldlM_option_none _ (List.range (prep M).nf) f0
      (List.mem_range.mpr hf) hvisit st]
    rfl
  have hiter : ∀ st i, stepIter P (prep M) st i = none := by
    intro st i
    exact foldlM_option_none _ (List.range (infer_len (prep M))) (r0 + 1)
      (List.mem_range.mpr hr) hstep st
  rw [run_mmp_v2, coreRun]
  exact foldlM_option_none _ (List.range (prep M).num_iter) 0
    (List.mem_range.mpr hni) (fun a => hiter a 0) _

/-- A call whose previous action is `-1`: outside `[0, num_actions[f])`,
yet accepted by numpy's negative-index wrap-around. -/
def Mneg : MMPInput :=
  { num_factors := 1, num_states := fun _ => 2, num_controls := fun _ => 2,
    B := fun _ i j u => if u = 0 then (if i = j then 1 else 0) else (if i = j then 0 else 1),
    ll_seq := [fun _ => 1], policy := [fun _ => 0], prev_actions := some [fun _ => -1],
    prior := none, num_iter := 1, grad_descent := false, tau := 1 / 4,
    last_timestep := false }

/-- C9 counterexample: the trajectory of `Mneg` contains the action value
`-1` at a dereferenced position — outside `[0, num_actions[f]) = [0, 2)` —
yet the call completes normally (numpy wraps negative in-range indices), so
an out-of-range action value does not always fail the call. -/
theorem claim_C9_counterexample :
    actIdx Mneg 0 0 = -1 ∧
    ¬ (0 ≤ actIdx Mneg 0 0 ∧ actIdx Mneg 0 0 < (Mneg.num_controls 0 : ℤ)) ∧
    0 + 1 < infer_len (prep Mneg) ∧
    (run_mmp_v2 Pone Mneg).isSome = true := by
  refine ⟨by decide, by decide, by decide, by decide⟩

/-- A call with an action value `5` far outside the two available actions,
at a dereferenced trajectory row. -/
def Mbad : MMPInput :=
  { Mneg with prev_actions := some [fun _ => 5] }

theorem claim_C9_amended_witness : run_mmp_v2 Pone Mbad = none :=
  claim_C9_amended Pone Mbad 0 0 (by decide) (by decide) (by decide) (by decide)

/-! ### Claim C10: `int()` truncation of fractional action values -/

theorem cutoff_lt_infer (C : Core) {t : ℕ} (h : (t : ℤ) < future_cutoff C) :
    t + 1 < infer_len C := by
  simp only [future_cutoff, infer_len, past_len] at *
  split <;> omega

/-- A visit whose dereferenced action indices resolve succeeds from every
state. -/
theorem visit_isSome (P : Prims) (C : Core) {t f : ℕ} (st : QS × ℚ)
    (hval : ∀ r, r + 1 < infer_len C → (npIndex (C.acts r f) (C.na f)).isSome)
    (ht : t < infer_len C) :
    (visit P C st t f).isSome := by
  rw [visit]
  have hpast : (lnB_past_msg P C st.1 t f).isSome := by
    rw [lnB_past_msg]
    rcases Nat.eq_zero_or_pos t with h0 | hpos
    · simp [h0]
    · have ht0 : ¬ t = 0 := by omega
      rw [if_neg ht0]
      have hder : (t - 1) + 1 < infer_len C := by omega
      rcases Option.isSome_iff_exists.mp (hval (t - 1) hder) with ⟨u, hu⟩
      rw [hu]
      rfl
  rcases Option.isSome_iff_exists.mp hpast with ⟨p, hp⟩
  rw [hp, Option.some_bind]
  rcases le_or_lt (future_cutoff C) (t : ℤ) with hcut | hcut
  · rw [lnB_future_msg, if_pos hcut]
    rfl
  · rw [lnB_future_msg, if_neg (not_le.mpr hcut)]
    rcases Option.isSome_iff_exists.mp (hval t (cutoff_lt_infer C hcut)) with ⟨u, hu⟩
    rw [hu]
    rfl

/-- A call all of whose dereferenced action indices resolve completes
normally. -/
theorem coreRun_isSome (P : Prims) (C : Core)
    (hvalid : ∀ f, f < C.nf → ∀ r, r + 1 < infer_len C →
      (npIndex (C.acts r f) (C.na f)).isSome) :
    (coreRun P C).isSome := by
  have hstep : ∀ st t, t ∈ List.range (infer_len C) → (stepTime P C st t).isSome := by
    intro st t htmem
    rw [stepTime]
    have hfold : ((List.range C.nf).foldlM (fun s f => visit P C s t f) st).isSome := by
      apply foldlM_option_isSome
      intro a f hfmem
      exact visit_isSome P C a (hvalid f (List.mem_range.mp hfmem))
        (List.mem_range.mp htmem)
    rcases Option.isSome_iff_exists.mp hfold with ⟨st1, h1⟩
    rw [h1]
    rfl
  have hiter : ∀ st i, i ∈ List.range C.num_iter → (stepIter P C st i).isSome := by
    intro st i _
    exact foldlM_option_isSome _ _ (fun a b hb => hstep a b hb) st
  exact foldlM_option_isSome _ _ (fun a b hb => hiter a b hb) _

/-- Python `int()` of an integer-valued rational is that integer. -/
theorem pyInt_intCast (k : ℤ) : pyInt ((k : ℤ) : ℚ) = k := by
  rw [pyInt]
  split
  · exact Int.floor_intCast k
  · exact Int.ceil_intCast k

/-- Replace every entry of a policy row by its truncation toward zero. -/
def truncRow (row : ℕ → ℚ) : ℕ → ℚ := fun f => ((pyInt (row f) : ℤ) : ℚ)

/-- The call with every policy and previous-action entry truncated. -/
def truncInput (M : MMPInput) : MMPInput :=
  { M with policy := M.policy.map truncRow,
           prev_actions := M.prev_actions.map (fun l => l.map truncRow) }

theorem getD_append_split {α : Type} (l1 l2 : List α) (t : ℕ) (d : α) :
    (l1 ++ l2).getD t d = if t < l1.length then l1.getD t d else l2.getD (t - l1.length) d := by
  induction l1 generalizing t with
  | nil => simp
  | cons x xs ih =>
    cases t with
    | zero => simp
    | succ k =>
      simp only [List.cons_append, List.getD_cons_succ, ih, List.length_cons,
        Nat.succ_lt_succ_iff, Nat.succ_sub_succ]

theorem map_truncRow_getD (l : List (ℕ → ℚ)) (t f : ℕ) :
    ((l.map truncRow).getD t (fun _ => 0)) f =
      ((pyInt ((l.getD t (fun _ => 0)) f) : ℤ) : ℚ) := by
  induction l generalizing t with
  | nil =>
    simp only [List.map_nil, List.getD_nil]
    norm_num [pyInt]
  | cons x xs ih =>
    cases t with
    | zero => simp [truncRow]
    | succ k => simpa using ih k

theorem replicate_zrow_getD (n t f : ℕ) :
    ((List.replicate n (fun _ => (0:ℚ))).getD t (fun _ => 0)) f = 0 := by
  induction n generalizing t with
  | zero => simp
  | succ k ih =>
    cases t with
    | zero => simp [List.replicate_succ]
    | succ j => simpa [List.replicate_succ] using ih j

theorem full_policy_trunc (M : MMPInput) (t f : ℕ) :
    (full_policy (truncInput M)).getD t (fun _ => 0) f =
      ((pyInt ((full_policy M).getD t (fun _ => 0) f) : ℤ) : ℚ) := by
  rw [full_policy, full_policy]
  cases hprev : M.prev_actions with
  | none =>
    have h1 : (truncInput M).prev_actions = none := by simp [truncInput, hprev]
    have h2 : (truncInput M).policy = M.policy.map truncRow := rfl
    have h3 : (truncInput M).ll_seq = M.ll_seq := rfl
    rw [h1, h2, h3, Option.getD_none]
    rw [getD_append_split, getD_append_split]
    split
    · rw [replicate_zrow_getD]
      norm_num [pyInt]
    · exact map_truncRow_getD M.policy _ f
  | some prev =>
    have h1 : (truncInput M).prev_actions = some (prev.map truncRow) := by
      simp [truncInput, hprev]
    have h2 : (truncInput M).policy = M.policy.map truncRow := rfl
    rw [h1, h2, Option.getD_some]
    rw [Option.getD_some]
    rw [getD_append_split, getD_append_split]
    simp only [List.length_map]
    split
    · exact map_truncRow_getD prev t f
    · exact map_truncRow_getD M.policy _ f

theorem actIdx_trunc (M : MMPInput) : actIdx (truncInput M) = actIdx M := by
  funext t f
  rw [actIdx, actIdx, full_policy_trunc, pyInt_intCast]

theorem prep_trunc (M : MMPInput) : prep (truncInput M) = prep M := by
  unfold prep
  rw [actIdx_trunc M]
  rw [show (truncInput M).policy.length = M.policy.length from List.length_map _ _]
  rfl

/-- C10: action entries are `int()`-truncated at every use site, so a call
whose (possibly fractional) dereferenced action values truncate to valid
indices completes normally and returns exactly the same `(qs_seq, F)` as
the call with every entry replaced by its truncation toward zero;
fractional action values are never rejected as such. -/
theorem claim_C10 (P : Prims) (M : MMPInput)
    (hvalid : ∀ f, f < M.num_factors → ∀ r, r + 1 < infer_len (prep M) →
      0 ≤ actIdx M r f ∧ actIdx M r f < (M.num_controls f : ℤ)) :
    (run_mmp_v2 P M).isSome = true ∧ run_mmp_v2 P M = run_mmp_v2 P (truncInput M) := by
  constructor
  · rw [run_mmp_v2]
    apply coreRun_isSome
    intro f hf r hr
    rcases hvalid f hf r hr with ⟨h0, h1⟩
    have hsome : npIndex ((prep M).acts r f) ((prep M).na f) = some (actIdx M r f).toNat :=
      npIndex_in_range h0 h1
    rw [hsome]
    rfl
  · rw [run_mmp_v2, run_mmp_v2, prep_trunc]

/-- A call whose previous action is the fractional value `1/2`. -/
def Mfrac : MMPInput :=
  { Mneg with prev_actions := some [fun _ => 1 / 2] }

theorem claim_C10_witness :
    (run_mmp_v2 Pone Mfrac).isSome = true ∧
      run_mmp_v2 Pone Mfrac = run_mmp_v2 Pone (truncInput Mfrac) :=
  claim_C10 Pone Mfrac (by
    intro f hf r hr
    have hnf : Mfrac.num_factors = 1 := rfl
    have hf0 : f = 0 := by omega
    have hinf : infer_len (prep Mfrac) = 2 := by decide
    have hr0 : r = 0 := by omega
    subst hf0
    subst hr0
    have hact : actIdx Mfrac 0 0 = 0 := by
      norm_num [actIdx, full_policy, Mfrac, Mneg, pyInt]
    rw [hact]
    exact ⟨le_refl 0, by decide⟩)

/-! ### Claim C3: the validity invariant -/

/-- A valid categorical belief vector over `n` states. -/
def validVec (n : ℕ) (v : List ℚ) : Prop :=
  v.length = n ∧ (∀ x ∈ v, 0 ≤ x) ∧ v.sum = 1

theorem vlog_length (P : Prims) (v : List ℚ) : (vlog P v).length = v.length := by
  simp [vlog]

theorem spm_dot_length (L : Tensor) (qs : ℕ → List ℚ) (nf : ℕ) (ns : ℕ → ℕ) (f : ℕ) :
    (spm_dot L qs nf ns f).length = ns f := by
  simp [spm_dot]

theorem matVecF_length (m : ℕ → ℕ → ℚ) (nrow ncol : ℕ) (v : List ℚ) :
    (matVecF m nrow ncol v).length = nrow := by
  simp [matVecF]

theorem vadd_length (a b : List ℚ) : (vadd a b).length = min a.length b.length := by
  simp [vadd]

theorem vsub_length (a b : List ℚ) : (vsub a b).length = min a.length b.length := by
  simp [vsub]

theorem smul_length (c : ℚ) (v : List ℚ) : (smul c v).length = v.length := by
  simp [smul]

theorem lnA_msg_length (P : Prims) (C : Core) (qs : QS) (t f : ℕ) :
    (lnA_msg P C qs t f).length = C.ns f := by
  rw [lnA_msg]
  split
  · rw [vlog_length, spm_dot_length]
  · rw [List.length_replicate]

theorem lnB_past_len (P : Prims) (C : Core) (qs : QS) {t f : ℕ} {p : List ℚ}
    (hprior : (C.prior f).length = C.ns f)
    (hp : lnB_past_msg P C qs t f = some p) : p.length = C.ns f := by
  rw [lnB_past_msg] at hp
  split at hp
  · rw [Option.some.injEq] at hp
    rw [← hp, vlog_length, hprior]
  · rcases Option.map_eq_some'.mp hp with ⟨u, _, hval⟩
    rw [← hval, vlog_length, matVecF_length]

theorem lnB_future_len (P : Prims) (C : Core) (qs : QS) {t f : ℕ} {p : List ℚ}
    (hp : lnB_future_msg P C qs t f = some p) : p.length = C.ns f := by
  rw [lnB_future_msg] at hp
  split at hp
  · rw [Option.some.injEq] at hp
    rw [← hp, qs_T, List.length_replicate]
  · rcases Option.map_eq_some'.mp hp with ⟨u, _, hval⟩
    rw [← hval, vlog_length, matVecF_length]

theorem uniform_valid {n : ℕ} (hn : 0 < n) : validVec n (uniform n) := by
  have hne : ((n : ℚ)) ≠ 0 := Nat.cast_ne_zero.mpr (Nat.pos_iff_ne_zero.mp hn)
  refine ⟨List.length_replicate _ _, ?_, ?_⟩
  · intro x hx
    rw [List.eq_of_mem_replicate hx]
    positivity
  · rw [uniform, List.sum_replicate, nsmul_eq_mul]
    field_simp

theorem updateQS_valid (C : Core) {qs : QS} {t f : ℕ} {v : List ℚ}
    (hInv : ∀ t' f', f' < C.nf → validVec (C.ns f') (qs t' f'))
    (hv : validVec (C.ns f) v) :
    ∀ t' f', f' < C.nf → validVec (C.ns f') (updateQS qs t f v t' f') := by
  intro t' f' hf'
  rw [updateQS]
  split
  · split
    · rename_i h1 h2
      rw [h2]
      exact hv
    · exact hInv t' f' hf'
  · exact hInv t' f' hf'

/-- A single visit preserves validity of every belief vector. -/
theorem visit_valid (P : Prims) (C : Core)
    (hexp : ∀ x, 0 < P.exp x)
    (hns : ∀ f, f < C.nf → 0 < C.ns f)
    (hprior : ∀ f, f < C.nf → (C.prior f).length = C.ns f)
    {st st' : QS × ℚ} {t f : ℕ} (hf : f < C.nf)
    (hInv : ∀ t' f', f' < C.nf → validVec (C.ns f') (st.1 t' f'))
    (hv : visit P C st t f = some st') :
    ∀ t' f', f' < C.nf → validVec (C.ns f') (st'.1 t' f') := by
  rw [visit] at hv
  cases hpast : lnB_past_msg P C st.1 t f with
  | none => rw [hpast] at hv; exact absurd hv (by simp)
  | some p =>
    cases hfut : lnB_future_msg P C st.1 t f with
    | none => rw [hpast, hfut] at hv; exact absurd hv (by simp)
    | some fu =>
      rw [hpast, hfut, Option.some_bind, Option.map_some', Option.some.injEq] at hv
      have hplen : p.length = C.ns f := lnB_past_len P C st.1 (hprior f hf) hpast
      have hfulen : fu.length = C.ns f := lnB_future_len P C st.1 hfut
      have hlnA : (lnA_msg P C st.1 t f).length = C.ns f := lnA_msg_length P C st.1 t f
      have hqslen : (st.1 t f).length = C.ns f := (hInv t f hf).1
      rw [← hv, visitOk]
      cases hgrad : C.grad_descent with
      | true =>
        simp only [if_true]
        set lnqs0 := (st.1 t f).map (fun x => P.log (x + eps)) with hdef0
        set coeff : ℚ := if future_cutoff C ≤ (t : ℤ) then 1 else 2 with hdefc
        set err0 := vsub (vadd (vadd (smul coeff (lnA_msg P C st.1 t f)) p) fu)
          (smul coeff lnqs0) with hdefe0
        set err := vsub err0 (List.replicate err0.length (vmean err0)) with hdefe
        set lnqs := vadd lnqs0 (smul C.tau err) with hdefl
        have hlen0 : lnqs0.length = C.ns f := by
          rw [hdef0, List.length_map, hqslen]
        have hlene0 : err0.length = C.ns f := by
          rw [hdefe0, vsub_length, vadd_length, vadd_length, smul_length, smul_length,
            hlnA, hplen, hfulen, hlen0]
          omega
        have hlene : err.length = C.ns f := by
          rw [hdefe, vsub_length, List.length_replicate, hlene0]
          omega
        have hlenl : lnqs.length = C.ns f := by
          rw [hdefl, vadd_length, smul_length, hlen0, hlene]
          omega
        have hne : lnqs ≠ [] := by
          intro h
          rw [h] at hlenl
          have := hns f hf
          simp at hlenl
          omega
        have hvalid := softmax_valid P hexp lnqs hne
        apply updateQS_valid C hInv
        exact ⟨by rw [hvalid.1, hlenl], hvalid.2.1, hvalid.2.2⟩
      | false =>
        simp only [Bool.false_eq_true, if_false]
        set w := vadd (vadd (lnA_msg P C st.1 t f) p) fu with hdefw
        have hlenw : w.length = C.ns f := by
          rw [hdefw, vadd_length, vadd_length, hlnA, hplen, hfulen]
          omega
        have hne : w ≠ [] := by
          intro h
          rw [h] at hlenw
          have := hns f hf
          simp at hlenw
          omega
        have hvalid := softmax_valid P hexp w hne
        apply updateQS_valid C hInv
        exact ⟨by rw [hvalid.1, hlenw], hvalid.2.1, hvalid.2.2⟩

/-- Every belief vector of a completed run is valid. -/
theorem coreRun_valid (P : Prims) (C : Core)
    (hexp : ∀ x, 0 < P.exp x)
    (hns : ∀ f, f < C.nf → 0 < C.ns f)
    (hprior : ∀ f, f < C.nf → (C.prior f).length = C.ns f)
    (r : QS × ℚ) (hr : coreRun P C = some r) :
    ∀ t f, f < C.nf → validVec (C.ns f) (r.1 t f) := by
  have hinit : ∀ t' f', f' < C.nf → validVec (C.ns f') ((init_qs C, (0:ℚ)).1 t' f') := by
    intro t' f' hf'
    exact uniform_valid (hns f' hf')
  refine @foldlM_option_inv (QS × ℚ) ℕ
    (fun st => ∀ t' f', f' < C.nf → validVec (C.ns f') (st.1 t' f'))
    (stepIter P C) (List.range C.num_iter) ?_ _ hinit r hr
  intro a b _ ha r1 hr1
  refine @foldlM_option_inv (QS × ℚ) ℕ
    (fun st => ∀ t' f', f' < C.nf → validVec (C.ns f') (st.1 t' f'))
    (stepTime P C) (List.range (infer_len C)) ?_ a ha r1 hr1
  intro a2 t _ ha2 r2 hr2
  rw [stepTime] at hr2
  cases hfold : (List.range C.nf).foldlM (fun s f => visit P C s t f) a2 with
  | none => rw [hfold] at hr2; exact absurd hr2 (by simp)
  | some st1 =>
    rw [hfold, Option.map_some', Option.some.injEq] at hr2
    have hst1 := @foldlM_option_inv (QS × ℚ) ℕ
      (fun st => ∀ t' f', f' < C.nf → validVec (C.ns f') (st.1 t' f'))
      (fun s f => visit P C s t f) (List.range C.nf) ?_ a2 ha2 st1 hfold
    · rw [← hr2]
      split
      · exact hst1
      · exact hst1
    · intro a3 f hfmem ha3 r3 hr3
      exact visit_valid P C hexp hns hprior (List.mem_range.mp hfmem) ha3 hr3

/-- C3: under both update rules, every belief vector of the returned
`qs_seq` — for every timestep of the window and every factor — is
elementwise non-negative and sums to 1. -/
theorem claim_C3 (P : Prims) (M : MMPInput)
    (hexp : ∀ x, 0 < P.exp x)
    (hns : ∀ f, f < M.num_factors → 0 < M.num_states f)
    (hprior : ∀ f, f < M.num_factors → (priorR M f).length = M.num_states f)
    (r : QS × ℚ) (hr : run_mmp_v2 P M = some r) :
    ∀ t f, t < infer_len (prep M) → f < M.num_factors →
      (∀ x ∈ r.1 t f, 0 ≤ x) ∧ (r.1 t f).sum = 1 := by
  intro t f _ hf
  have h := coreRun_valid P (prep M) hexp hns hprior r hr t f hf
  exact ⟨h.2.1, h.2.2⟩

theorem claim_C3_witness :
    (∀ x ∈ (((run_mmp_v2 Pone Mwin).getD (init_qs (prep Mwin), 0)).1 0 0), 0 ≤ x) ∧
      ((((run_mmp_v2 Pone Mwin).getD (init_qs (prep Mwin), 0)).1 0 0)).sum = 1 :=
  claim_C3 Pone Mwin (fun x => by norm_num [Pone]) (fun f _ => Nat.succ_pos 1)
    (fun f hf => rfl) ((run_mmp_v2 Pone Mwin).getD (init_qs (prep Mwin), 0)) rfl
    0 0 (by decide) (by decide)

/-! ### Claim C8: uniform evidence and prior -/

theorem npIndex_lt {k : ℤ} {n u : ℕ} (h : npIndex k n = some u) : u < n := by
  rw [npIndex] at h
  split at h
  · rw [Option.some.injEq] at h
    omega
  · split at h
    · rw [Option.some.injEq] at h
      omega
    · exact absurd h (by simp)

theorem spm_dot_const (L : Tensor) (qs : ℕ → List ℚ) (nf : ℕ) (ns : ℕ → ℕ) (f : ℕ)
    (hL : ∀ s s', L s = L s') :
    ∃ c, spm_dot L qs nf ns f = List.replicate (ns f) c := by
  refine ⟨((allIdx (((List.range nf).filter (fun g => g ≠ f)).map ns)).map (fun r =>
      L (insAt f 0 r) * ((((List.range nf).filter (fun g => g ≠ f)).zip r).map
        (fun gj => (qs gj.1).getD gj.2 0)).prod)).sum, ?_⟩
  simp only [spm_dot]
  rw [List.eq_replicate_iff]
  constructor
  · simp
  · intro b hb
    rcases List.mem_map.mp hb with ⟨i, _, hbi⟩
    rw [← hbi]
    have hcg : (allIdx (((List.range nf).filter (fun g => g ≠ f)).map ns)).map (fun r =>
        L (insAt f i r) * ((((List.range nf).filter (fun g => g ≠ f)).zip r).map
          (fun gj => (qs gj.1).getD gj.2 0)).prod) =
        (allIdx (((List.range nf).filter (fun g => g ≠ f)).map ns)).map (fun r =>
        L (insAt f 0 r) * ((((List.range nf).filter (fun g => g ≠ f)).zip r).map
          (fun gj => (qs gj.1).getD gj.2 0)).prod) :=
      List.map_congr_left (fun r _ => by rw [hL (insAt f i r) (insAt f 0 r)])
    rw [hcg]

theorem matVecF_uniform (m : ℕ → ℕ → ℚ) (n : ℕ)
    (hrow : ∀ i, i < n → ((List.range n).map (fun j => m i j)).sum = 1) :
    matVecF m n n (uniform n) = List.replicate n (1 / (n : ℚ)) := by
  simp only [matVecF]
  rw [List.eq_replicate_iff]
  refine ⟨by simp, ?_⟩
  intro b hb
  rcases List.mem_map.mp hb with ⟨i, hi, hbi⟩
  have hilt : i < n := List.mem_range.mp hi
  rw [← hbi]
  have h1 : (List.range n).map (fun j => m i j * (uniform n).getD j 0) =
      (List.range n).map (fun j => m i j * (1 / (n : ℚ))) :=
    List.map_congr_left (fun j hj => by
      rw [uniform, getD_replicate n j _ (List.mem_range.mp hj)])
  rw [h1, sum_map_mul_last, hrow i hilt, one_mul]

theorem trans_B_rowsum (C : Core) (f u i : ℕ)
    (hcol : ((List.range (C.ns f)).map (fun k => C.B f k i u)).sum = 1) :
    ((List.range (C.ns f)).map (fun j => trans_B C f u i j)).sum = 1 := by
  have h1 : (List.range (C.ns f)).map (fun j => trans_B C f u i j) =
      (List.range (C.ns f)).map (fun j => C.B f j i u) :=
    List.map_congr_left (fun j _ => by rw [trans_B]; rw [hcol, div_one])
  rw [h1]
  exact hcol

theorem updateQS_uniform (C : Core) {qs : QS} {t f : ℕ}
    (hInv : ∀ t' f', qs t' f' = uniform (C.ns f')) :
    ∀ t' f', updateQS qs t f (uniform (C.ns f)) t' f' = uniform (C.ns f') := by
  intro t' f'
  rw [updateQS]
  split
  · split
    · rename_i h1 h2
      rw [h2]
    · exact hInv t' f'
  · exact hInv t' f'

/-- A single visit started from all-uniform beliefs with constant evidence,
uniform prior and doubly stochastic transition slices writes back a uniform
belief. -/
theorem visit_uniform (P : Prims) (C : Core)
    (hexp : ∀ x, 0 < P.exp x)
    (hns : ∀ f, f < C.nf → 0 < C.ns f)
    (hll : ∀ t, t < past_len C → ∀ s s', C.ll.getD t zeroTensor s = C.ll.getD t zeroTensor s')
    (hprior : ∀ f, f < C.nf → C.prior f = uniform (C.ns f))
    (hBrow : ∀ f, f < C.nf → ∀ u, u < C.na f → ∀ i, i < C.ns f →
      ((List.range (C.ns f)).map (fun j => C.B f i j u)).sum = 1)
    (hBcol : ∀ f, f < C.nf → ∀ u, u < C.na f → ∀ i, i < C.ns f →
      ((List.range (C.ns f)).map (fun k => C.B f k i u)).sum = 1)
    {st st' : QS × ℚ} {t f : ℕ} (hf : f < C.nf)
    (hInv : ∀ t' f', st.1 t' f' = uniform (C.ns f'))
    (hv : visit P C st t f = some st') :
    ∀ t' f', st'.1 t' f' = uniform (C.ns f') := by
  rw [visit] at hv
  cases hpast : lnB_past_msg P C st.1 t f with
  | none => rw [hpast] at hv; exact absurd hv (by simp)
  | some p =>
    cases hfut : lnB_future_msg P C st.1 t f with
    | none => rw [hpast, hfut] at hv; exact absurd hv (by simp)
    | some fu =>
      rw [hpast, hfut, Option.some_bind, Option.map_some', Option.some.injEq] at hv
      have hA : ∃ a, lnA_msg P C st.1 t f = List.replicate (C.ns f) a := by
        rw [lnA_msg]
        split
        · rename_i hlt
          rcases spm_dot_const (C.ll.getD t zeroTensor) (st.1 t) C.nf C.ns f (hll t hlt)
            with ⟨c, hc⟩
          exact ⟨P.log (c + eps), by rw [hc, vlog_replicate]⟩
        · exact ⟨0, rfl⟩
      have hpv : ∃ b, p = List.replicate (C.ns f) b := by
        rw [lnB_past_msg] at hpast
        split at hpast
        · rw [Option.some.injEq] at hpast
          refine ⟨P.log (1 / (C.ns f : ℚ) + eps), ?_⟩
          rw [← hpast, hprior f hf, uniform, vlog_replicate]
        · rcases Option.map_eq_some'.mp hpast with ⟨u, hu, hval⟩
          have hun : u < C.na f := npIndex_lt hu
          refine ⟨P.log (1 / (C.ns f : ℚ) + eps), ?_⟩
          rw [← hval, hInv (t - 1) f,
            matVecF_uniform _ _ (fun i hi => hBrow f hf u hun i hi), vlog_replicate]
      have hfv : ∃ c, fu = List.replicate (C.ns f) c := by
        rw [lnB_future_msg] at hfut
        split at hfut
        · rw [Option.some.injEq] at hfut
          exact ⟨0, by rw [← hfut, qs_T]⟩
        · rcases Option.map_eq_some'.mp hfut with ⟨u, hu, hval⟩
          have hun : u < C.na f := npIndex_lt hu
          refine ⟨P.log (1 / (C.ns f : ℚ) + eps), ?_⟩
          rw [← hval, hInv (t + 1) f,
            matVecF_uniform _ _ (fun i hi => trans_B_rowsum C f u i (hBcol f hf u hun i hi)),
            vlog_replicate]
      rcases hA with ⟨a, hA⟩
      rcases hpv with ⟨b, hpv⟩
      rcases hfv with ⟨c, hfv⟩
      rw [← hv, visitOk]
      cases hgrad : C.grad_descent with
      | false =>
        simp only [Bool.false_eq_true, if_false]
        have hval : softmax P (vadd (vadd (lnA_msg P C st.1 t f) p) fu) = uniform (C.ns f) := by
          rw [hA, hpv, hfv, vadd_replicate, vadd_replicate]
          exact softmax_replicate P hexp _ (hns f hf) _
        rw [hval]
        exact updateQS_uniform C hInv
      | true =>
        simp only [if_true]
        have hlnqs0 : (st.1 t f).map (fun x => P.log (x + eps)) =
            List.replicate (C.ns f) (P.log (1 / (C.ns f : ℚ) + eps)) := by
          rw [hInv t f, uniform, List.map_replicate]
        have hval : softmax P (vadd ((st.1 t f).map (fun x => P.log (x + eps)))
            (smul C.tau (vsub
              (vsub (vadd (vadd (smul (if future_cutoff C ≤ (t : ℤ) then 1 else 2)
                  (lnA_msg P C st.1 t f)) p) fu)
                (smul (if future_cutoff C ≤ (t : ℤ) then 1 else 2)
                  ((st.1 t f).map (fun x => P.log (x + eps)))))
              (List.replicate (vsub (vadd (vadd (smul
                  (if future_cutoff C ≤ (t : ℤ) then 1 else 2) (lnA_msg P C st.1 t f)) p) fu)
                (smul (if future_cutoff C ≤ (t : ℤ) then 1 else 2)
                  ((st.1 t f).map (fun x => P.log (x + eps))))).length
                (vmean (vsub (vadd (vadd (smul
                  (if future_cutoff C ≤ (t : ℤ) then 1 else 2) (lnA_msg P C st.1 t f)) p) fu)
                (smul (if future_cutoff C ≤ (t : ℤ) then 1 else 2)
                  ((st.1 t f).map (fun x => P.log (x + eps)))))))))) = uniform (C.ns f) := by
          rw [hlnqs0, hA, hpv, hfv, smul_replicate, smul_replicate, vadd_replicate,
            vadd_replicate, vsub_replicate, List.length_replicate,
            vmean_replicate _ (hns f hf), vsub_replicate, smul_replicate, vadd_replicate]
          exact softmax_replicate P hexp _ (hns f hf) _
        rw [hval]
        exact updateQS_uniform C hInv

/-- Every belief vector of a completed run under the C8 hypotheses is
uniform. -/
theorem coreRun_uniform (P : Prims) (C : Core)
    (hexp : ∀ x, 0 < P.exp x)
    (hns : ∀ f, f < C.nf → 0 < C.ns f)
    (hll : ∀ t, t < past_len C → ∀ s s', C.ll.getD t zeroTensor s = C.ll.getD t zeroTensor s')
    (hprior : ∀ f, f < C.nf → C.prior f = uniform (C.ns f))
    (hBrow : ∀ f, f < C.nf → ∀ u, u < C.na f → ∀ i, i < C.ns f →
      ((List.range (C.ns f)).map (fun j => C.B f i j u)).sum = 1)
    (hBcol : ∀ f, f < C.nf → ∀ u, u < C.na f → ∀ i, i < C.ns f →
      ((List.range (C.ns f)).map (fun k => C.B f k i u)).sum = 1)
    (r : QS × ℚ) (hr : coreRun P C = some r) :
    ∀ t f, r.1 t f = uniform (C.ns f) := by
  have hinit : ∀ t' f', ((init_qs C, (0:ℚ)).1 t' f') = uniform (C.ns f') := by
    intro t' f'
    rfl
  refine @foldlM_option_inv (QS × ℚ) ℕ
    (fun st => ∀ t' f', st.1 t' f' = uniform (C.ns f'))
    (stepIter P C) (List.range C.num_iter) ?_ _ hinit r hr
  intro a b _ ha r1 hr1
  refine @foldlM_option_inv (QS × ℚ) ℕ
    (fun st => ∀ t' f', st.1 t' f' = uniform (C.ns f'))
    (stepTime P C) (List.range (infer_len C)) ?_ a ha r1 hr1
  intro a2 t _ ha2 r2 hr2
  rw [stepTime] at hr2
  cases hfold : (List.range C.nf).foldlM (fun s f => visit P C s t f) a2 with
  | none => rw [hfold] at hr2; exact absurd hr2 (by simp)
  | some st1 =>
    rw [hfold, Option.map_some', Option.some.injEq] at hr2
    have hst1 := @foldlM_option_inv (QS × ℚ) ℕ
      (fun st => ∀ t' f', st.1 t' f' = uniform (C.ns f'))
      (fun s f => visit P C s t f) (List.range C.nf) ?_ a2 ha2 st1 hfold
    · rw [← hr2]
      split
      · exact hst1
      · exact hst1
    · intro a3 f hfmem ha3 r3 hr3
      exact visit_uniform P C hexp hns hll hprior hBrow hBcol
        (List.mem_range.mp hfmem) ha3 hr3

/-- C8 (amended): with every entry of `ll_seq` a constant tensor, a uniform
prior, and every dereferenced action slice of `B` doubly stochastic (rows
and columns each summing to 1), the beliefs remain uniform after any number
of iterations, under both update rules.  (For general column-stochastic `B`
the claim fails: `B · uniform` need not be uniform.) -/
theorem claim_C8_amended (P : Prims) (M : MMPInput)
    (hexp : ∀ x, 0 < P.exp x)
    (hns : ∀ f, f < M.num_factors → 0 < M.num_states f)
    (hll : ∀ t, t < M.ll_seq.length → ∀ s s',
      M.ll_seq.getD t zeroTensor s = M.ll_seq.getD t zeroTensor s')
    (hprior : ∀ f, f < M.num_factors → priorR M f = uniform (M.num_states f))
    (hBrow : ∀ f, f < M.num_factors → ∀ u, u < M.num_controls f → ∀ i, i < M.num_states f →
      ((List.range (M.num_states f)).map (fun j => M.B f i j u)).sum = 1)
    (hBcol : ∀ f, f < M.num_factors → ∀ u, u < M.num_controls f → ∀ i, i < M.num_states f →
      ((List.range (M.num_states f)).map (fun k => M.B f k i u)).sum = 1)
    (r : QS × ℚ) (hr : run_mmp_v2 P M = some r) :
    ∀ t f, r.1 t f = uniform (M.num_states f) :=
  coreRun_uniform P (prep M) hexp hns hll hprior hBrow hBcol r hr

theorem claim_C8_amended_witness :
    ((run_mmp_v2 Pone Mwin).getD (init_qs (prep Mwin), 0)).1 1 0 =
      uniform (Mwin.num_states 0) :=
  claim_C8_amended Pone Mwin (fun x => by norm_num [Pone]) (fun f _ => Nat.succ_pos 1)
    (fun t ht s s' => by
      have ht2 : t = 0 ∨ t = 1 := by
        have hlen : Mwin.ll_seq.length = 2 := rfl
        omega
      rcases ht2 with h | h <;> rw [h] <;> rfl)
    (fun f _ => rfl)
    (fun f _ u _ i hi => by
      have hi2 : i < 2 := hi
      interval_cases i <;>
        · rw [show List.range (Mwin.num_states f) = [0, 1] from rfl]
          norm_num [Mwin])
    (fun f _ u _ i hi => by
      have hi2 : i < 2 := hi
      interval_cases i <;>
        · rw [show List.range (Mwin.num_states f) = [0, 1] from rfl]
          norm_num [Mwin])
    ((run_mmp_v2 Pone Mwin).getD (init_qs (prep Mwin), 0)) rfl 1 0

/-- A single-factor call whose only transition slice is column-stochastic
but not doubly stochastic: both columns map to state 0. -/
def Mcol : MMPInput :=
  { num_factors := 1, num_states := fun _ => 2, num_controls := fun _ => 1,
    B := fun _ i _ _ => if i = 0 then 1 else 0,
    ll_seq := [fun _ => 1], policy := [fun _ => 0], prev_actions := none,
    prior := none, num_iter := 1, grad_descent := false, tau := 1 / 4,
    last_timestep := false }

set_option maxHeartbeats 2000000 in
/-- C8 counterexample: with uniform (constant) evidence, a uniform prior, a
positive exponential and a valid column-stochastic `B`, the belief at
timestep 1 after one sweep is NOT uniform — the past message
`B · uniform = (rowsums)/n` is non-uniform when the rows of `B` do not sum
to 1, refuting the claim for arbitrary valid transition tensors. -/
theorem claim_C8_counterexample :
    (∀ t, t < Mcol.ll_seq.length → ∀ s s',
      Mcol.ll_seq.getD t zeroTensor s = Mcol.ll_seq.getD t zeroTensor s') ∧
    (∀ f, priorR Mcol f = uniform (Mcol.num_states f)) ∧
    (∀ x, 0 < Pmono.exp x) ∧
    (∀ f u i, i < Mcol.num_states f →
      ((List.range (Mcol.num_states f)).map (fun k => Mcol.B f k i u)).sum = 1) ∧
    (run_mmp_v2 Pmono Mcol).isSome = true ∧
    ((run_mmp_v2 Pmono Mcol).getD (init_qs (prep Mcol), 0)).1 1 0 ≠
      uniform (Mcol.num_states 0) := by
  refine ⟨?_, fun f => rfl, qexp_pos, ?_, by decide, ?_⟩
  · intro t ht s s'
    have ht0 : t = 0 := by
      have hlen : Mcol.ll_seq.length = 1 := rfl
      omega
    rw [ht0]
    rfl
  · intro f u i hi
    have hi2 : i < 2 := hi
    interval_cases i <;>
      · rw [show List.range (Mcol.num_states f) = [0, 1] from rfl]
        norm_num [Mcol]
  · have hr1 : List.range 1 = [0] := rfl
    have hr2 : List.range 2 = [0, 1] := rfl
    norm_num [run_mmp_v2, coreRun, stepIter, stepTime, visit, visitOk, lnA_msg, lnB_past_msg,
      lnB_future_msg, spm_dot, allIdx, insAt, matVecF, trans_B, qs_T, init_qs, uniform,
      updateQS, prep, priorR, actIdx, full_policy, pyInt, npIndex, past_len, infer_len,
      future_cutoff, fe_like, vadd, vsub, smul, vdot, vmean, vlog, normalize, softmax, eps,
      Mcol, Pmono, qexp, zeroTensor, hr1, hr2, List.foldlM_cons, List.foldlM_nil,
      List.replicate_succ, List.replicate_zero, Function.comp, List.map_cons, List.map_nil,
      List.sum_cons, List.sum_nil, List.zipWith_cons_cons, List.zipWith_nil_left,
      List.zipWith_nil_right, List.flatMap_cons, List.flatMap_nil, List.filter_cons,
      List.filter_nil, List.zip_cons_cons, List.zip_nil_left, List.zip_nil_right,
      List.getD_cons_zero, List.getD_cons_succ, List.prod_cons, List.prod_nil,
      List.length_cons, List.length_nil, List.append_nil, List.nil_append, List.cons_append,
      Option.getD_some, Option.getD_none, Option.map_some, Option.map_none, Option.some_bind,
      Option.bind, pure]

/-! ### Claim C5: free-energy accumulation under the direct rule -/

/-- The flattened `(iteration, timestep)` schedule of the double loop. -/
def sched (C : Core) : List ℕ :=
  (List.range C.num_iter).flatMap (fun _ => List.range (infer_len C))

/-- From the claim: the single free-energy contribution of timestep `t` —
the free-energy primitive applied to the joint belief at `t` against the
prior, with the accuracy term `log(ll_seq[t] + 1e-16)` passed exactly when
`t < past_len`. -/
def fe_contrib (P : Prims) (C : Core) (qs : QS) (t : ℕ) : ℚ :=
  P.calc_free_energy (qs t) C.prior C.nf (fe_like P C t)

/-- The belief dynamics of one timestep, with the free energy projected
away. -/
def qsStepT (P : Prims) (C : Core) (qs : QS) (t : ℕ) : Option QS :=
  (stepTime P C (qs, 0) t).map (fun st => st.1)

/-- From the claim: running the belief dynamics along a schedule while
summing the per-timestep free-energy contributions, starting from `F = 0`
and never resetting. -/
def feTrace (P : Prims) (C : Core) : QS → List ℕ → Option (QS × ℚ)
  | qs, [] => some (qs, 0)
  | qs, t :: ts =>
    (qsStepT P C qs t).bind (fun q1 =>
      (feTrace P C q1 ts).map (fun r => (r.1, fe_contrib P C q1 t + r.2)))

theorem visit_shift (P : Prims) (C : Core) (qs : QS) (F : ℚ) (t f : ℕ) :
    visit P C (qs, F) t f = (visit P C (qs, 0) t f).map (fun r => (r.1, F + r.2)) := by
  simp only [visit]
  cases hpast : lnB_past_msg P C qs t f with
  | none => rfl
  | some p =>
    cases hfut : lnB_future_msg P C qs t f with
    | none => rfl
    | some fu =>
      simp only [Option.some_bind, Option.map_some']
      rw [visitOk, visitOk]
      cases hgrad : C.grad_descent with
      | false =>
        simp only [Bool.false_eq_true, if_false, add_zero]
      | true =>
        simp only [if_true, zero_add]

theorem foldVisit_shift (P : Prims) (C : Core) (t : ℕ) :
    ∀ (l : List ℕ) (qs : QS) (F : ℚ),
      l.foldlM (fun s f => visit P C s t f) (qs, F) =
        (l.foldlM (fun s f => visit P C s t f) (qs, 0)).map (fun r => (r.1, F + r.2)) := by
  intro l
  induction l with
  | nil =>
    intro qs F
    simp [List.foldlM_nil, pure]
  | cons x xs ih =>
    intro qs F
    rw [List.foldlM_cons, List.foldlM_cons, visit_shift P C qs F t x]
    cases h : visit P C (qs, 0) t x with
    | none => rfl
    | some r1 =>
      simp only [Option.map_some', Option.some_bind, Bind.bind]
      rw [show r1 = (r1.1, r1.2) from rfl, ih r1.1 (F + r1.2), ih r1.1 r1.2]
      cases h2 : xs.foldlM (fun s f => visit P C s t f) (r1.1, 0) with
      | none => rfl
      | some s =>
        simp only [Option.map_some', Option.some.injEq, Prod.mk.injEq]
        exact ⟨trivial, by ring⟩

theorem stepTime_shift (P : Prims) (C : Core) (qs : QS) (F : ℚ) (t : ℕ) :
    stepTime P C (qs, F) t = (stepTime P C (qs, 0) t).map (fun r => (r.1, F + r.2)) := by
  rw [stepTime, stepTime, foldVisit_shift]
  cases h : (List.range C.nf).foldlM (fun s f => visit P C s t f) (qs, 0) with
  | none => rfl
  | some st1 =>
    simp only [Option.map_some']
    cases hgrad : C.grad_descent with
    | false =>
      simp only [Bool.false_eq_true, if_false, Option.some.injEq, Prod.mk.injEq]
      exact ⟨trivial, by ring⟩
    | true =>
      simp only [if_true]

/-- A direct-rule visit leaves the running free energy unchanged. -/
theorem visit_F_direct (P : Prims) (C : Core) (hgrad : C.grad_descent = false)
    {st st' : QS × ℚ} {t f : ℕ} (hv : visit P C st t f = some st') :
    st'.2 = st.2 := by
  rw [visit] at hv
  cases hpast : lnB_past_msg P C st.1 t f with
  | none => rw [hpast] at hv; exact absurd hv (by simp)
  | some p =>
    cases hfut : lnB_future_msg P C st.1 t f with
    | none => rw [hpast, hfut] at hv; exact absurd hv (by simp)
    | some fu =>
      rw [hpast, hfut, Option.some_bind, Option.map_some', Option.some.injEq] at hv
      rw [← hv, visitOk]
      simp only [hgrad, Bool.false_eq_true, if_false]

theorem foldVisit_F_direct (P : Prims) (C : Core) (hgrad : C.grad_descent = false) (t : ℕ) :
    ∀ (l : List ℕ) (st : QS × ℚ) (r : QS × ℚ),
      l.foldlM (fun s f => visit P C s t f) st = some r → r.2 = st.2 := by
  intro l
  induction l with
  | nil =>
    intro st r hr
    simp only [List.foldlM_nil, pure, Option.some.injEq] at hr
    rw [← hr]
  | cons x xs ih =>
    intro st r hr
    rw [List.foldlM_cons] at hr
    cases h1 : visit P C st t x with
    | none => rw [h1] at hr; exact absurd hr (by simp [Bind.bind])
    | some m =>
      rw [h1] at hr
      simp only [Bind.bind, Option.some_bind] at hr
      rw [ih m r hr, visit_F_direct P C hgrad h1]

/-- Under the direct rule one timestep advances the beliefs by the belief
dynamics and adds exactly one `fe_contrib` term to `F`. -/
theorem stepTime_direct (P : Prims) (C : Core) (hgrad : C.grad_descent = false)
    (qs : QS) (F : ℚ) (t : ℕ) {r : QS × ℚ}
    (h : stepTime P C (qs, F) t = some r) :
    qsStepT P C qs t = some r.1 ∧ r.2 = F + fe_contrib P C r.1 t := by
  rw [stepTime_shift] at h
  cases h0 : stepTime P C (qs, 0) t with
  | none => rw [h0] at h; exact absurd h (by simp)
  | some r0 =>
    rw [h0, Option.map_some', Option.some.injEq] at h
    have hq : qsStepT P C qs t = some r0.1 := by rw [qsStepT, h0, Option.map_some']
    have hF : r0.2 = fe_contrib P C r0.1 t := by
      rw [stepTime] at h0
      cases hfold : (List.range C.nf).foldlM (fun s f => visit P C s t f) (qs, 0) with
      | none => rw [hfold] at h0; exact absurd h0 (by simp)
      | some st1 =>
        rw [hfold, Option.map_some', Option.some.injEq] at h0
        have hF1 : st1.2 = 0 := foldVisit_F_direct P C hgrad t _ _ st1 hfold
        rw [← h0]
        simp only [hgrad, Bool.false_eq_true, if_false, hF1, zero_add]
        rfl
    constructor
    · rw [hq, ← h, Option.some.injEq]
    · rw [← h, ← hF]

theorem foldTime_feTrace (P : Prims) (C : Core) (hgrad : C.grad_descent = false) :
    ∀ (l : List ℕ) (qs : QS) (F : ℚ) (r : QS × ℚ),
      l.foldlM (stepTime P C) (qs, F) = some r →
      feTrace P C qs l = some (r.1, r.2 - F) := by
  intro l
  induction l with
  | nil =>
    intro qs F r hr
    simp only [List.foldlM_nil, pure, Option.some.injEq] at hr
    rw [feTrace, ← hr]
    simp
  | cons t ts ih =>
    intro qs F r hr
    rw [List.foldlM_cons] at hr
    cases h1 : stepTime P C (qs, F) t with
    | none => rw [h1] at hr; exact absurd hr (by simp [Bind.bind])
    | some m =>
      rw [h1] at hr
      simp only [Bind.bind, Option.some_bind] at hr
      rcases stepTime_direct P C hgrad qs F t h1 with ⟨hq, hF⟩
      have hm : ts.foldlM (stepTime P C) (m.1, m.2) = some r := by
        rw [show (m.1, m.2) = m from rfl]
        exact hr
      have htr := ih m.1 m.2 r hm
      rw [feTrace, hq, Option.some_bind, htr, Option.map_some', Option.some.injEq,
        Prod.mk.injEq]
      exact ⟨rfl, by rw [hF]; ring⟩

theorem foldlM_append_option {α β : Type} (f : α → β → Option α) (l1 l2 : List β) (a : α) :
    (l1 ++ l2).foldlM f a = (l1.foldlM f a).bind (fun m => l2.foldlM f m) := by
  induction l1 generalizing a with
  | nil => simp [List.foldlM_nil, pure]
  | cons x xs ih =>
    rw [List.cons_append, List.foldlM_cons, List.foldlM_cons]
    cases h : f a x with
    | none => rfl
    | some m =>
      simp only [Bind.bind, Option.some_bind]
      exact ih m

theorem foldIter_bind (P : Prims) (C : Core) :
    ∀ (l : List ℕ) (st : QS × ℚ),
      l.foldlM (stepIter P C) st =
        (l.flatMap (fun _ => List.range (infer_len C))).foldlM (stepTime P C) st := by
  intro l
  induction l with
  | nil => intro st; rfl
  | cons x xs ih =>
    intro st
    rw [List.foldlM_cons, List.flatMap_cons, foldlM_append_option]
    rw [show stepIter P C st x = (List.range (infer_len C)).foldlM (stepTime P C) st from rfl]
    cases h : (List.range (infer_len C)).foldlM (stepTime P C) st with
    | none => rfl
    | some m =>
      simp only [Bind.bind, Option.some_bind]
      exact ih m

theorem sched_length (C : Core) : (sched C).length = C.num_iter * infer_len C := by
  have h1 : ∀ (n k : ℕ), (List.range n).map (fun _ : ℕ => k) = List.replicate n k := by
    intro n k
    induction n with
    | zero => rfl
    | succ m ih =>
      rw [List.range_succ, List.map_append, ih, List.replicate_succ']
      rfl
  rw [sched, List.length_flatMap]
  simp only [Function.comp_def, List.length_range]
  rw [h1, List.sum_replicate, smul_eq_mul]

/-- C5: under the direct rule, the returned free energy is obtained by
starting from `F = 0` and, at every `(iteration, timestep)` visit of the
full `num_iter × infer_len` schedule, adding exactly one contribution: the
free-energy primitive applied to the joint belief of that timestep against
the prior, with the accuracy term `log(ll_seq[t] + 1e-16)` passed if and
only if `t < past_len` — never reset between outer iterations, so the
returned `F` is the sum over the entire traversal, not only the final
sweep, and the returned beliefs are those of the same traversal. -/
theorem claim_C5 (P : Prims) (M : MMPInput) (hgrad : M.grad_descent = false)
    (r : QS × ℚ) (hr : run_mmp_v2 P M = some r) :
    feTrace P (prep M) (init_qs (prep M)) (sched (prep M)) = some (r.1, r.2) ∧
      (sched (prep M)).length = M.num_iter * infer_len (prep M) := by
  constructor
  · rw [run_mmp_v2, coreRun, foldIter_bind] at hr
    have h2 := foldTime_feTrace P (prep M) hgrad (sched (prep M)) (init_qs (prep M)) 0 r hr
    simpa using h2
  · exact sched_length (prep M)

theorem claim_C5_witness :
    feTrace Pone (prep Mwin) (init_qs (prep Mwin)) (sched (prep Mwin)) =
      some (((run_mmp_v2 Pone Mwin).getD (init_qs (prep Mwin), 0)).1,
        ((run_mmp_v2 Pone Mwin).getD (init_qs (prep Mwin), 0)).2) ∧
      (sched (prep Mwin)).length = Mwin.num_iter * infer_len (prep Mwin) :=
  claim_C5 Pone Mwin rfl ((run_mmp_v2 Pone Mwin).getD (init_qs (prep Mwin), 0)) rfl

end MMP
